import Mathlib

/-
Verification of the search, filter, aggregation and caching core of the
political-contribution-monitor repository.

The JavaScript source is shallowly embedded:
* JS strings are lists of characters (JSStr); character operations are modelled
  over the ASCII range on which the repository's data and regexes operate.
* JS numbers that carry contribution amounts are modelled as rationals; the JS
  NaN produced by parseFloat on malformed input is modelled as Option.none.
* Each route handler's pure computation (src/backend/routes/search.js, the bulk
  search route, the export route) is translated function by function; express
  plumbing, JSON encoding and the HTTP layer are outside the model.
-/

set_option maxHeartbeats 1000000

namespace PCM

/-- JavaScript strings, modelled as lists of characters. -/
abbrev JSStr := List Char

/-- Membership of the JS regex class \s, over the ASCII range used by the data:
space, tab, line feed, vertical tab, form feed, carriage return. -/
def isWsChar (c : Char) : Bool :=
  c.toNat = 32 || c.toNat = 9 || c.toNat = 10 || c.toNat = 11 || c.toNat = 12 || c.toNat = 13

/-- JS String.prototype.toLowerCase on a single character, modelled over ASCII:
characters A-Z map 32 code points up, all others are unchanged. -/
def jsLowerChar (c : Char) : Char :=
  if 65 ≤ c.toNat ∧ c.toNat ≤ 90 then Char.ofNat (c.toNat + 32) else c

/-- JS String.prototype.toUpperCase on a single character, modelled over ASCII. -/
def jsUpperChar (c : Char) : Char :=
  if 97 ≤ c.toNat ∧ c.toNat ≤ 122 then Char.ofNat (c.toNat - 32) else c

/-- JS s.toLowerCase(). -/
def toLowerStr (s : JSStr) : JSStr := s.map jsLowerChar

/-- JS s.toUpperCase(). -/
def toUpperStr (s : JSStr) : JSStr := s.map jsUpperChar

/-- Characters kept by replace(/[^a-z0-9\s]/gi, '') in normalizeName: with the
case-insensitive flag the class keeps a-z, A-Z, 0-9 and whitespace. -/
def isKeepChar (c : Char) : Bool :=
  (97 ≤ c.toNat && c.toNat ≤ 122) || (65 ≤ c.toNat && c.toNat ≤ 90) ||
    (48 ≤ c.toNat && c.toNat ≤ 57) || isWsChar c

/-- One character step of replace(/\s+/g, ' '): every whitespace character is
first rewritten to a plain space; runs are then collapsed by squeezeSpaces. -/
def wsToSpace (c : Char) : Char := if isWsChar c then ' ' else c

/-- Collapses runs of adjacent spaces to one space.  Together with the
character-wise wsToSpace map this implements replace(/\s+/g, ' '). -/
def squeezeSpaces : JSStr → JSStr
  | [] => []
  | [c] => [c]
  | a :: b :: rest =>
    if a = ' ' ∧ b = ' ' then squeezeSpaces (b :: rest) else a :: squeezeSpaces (b :: rest)

/-- JS String.prototype.trim: whitespace stripped from both ends. -/
def trimWs (l : JSStr) : JSStr :=
  ((l.dropWhile isWsChar).reverse.dropWhile isWsChar).reverse

/-- JS (s || ''), applied to a value that is already a string: the empty string
is falsy and is replaced by the empty string, so this is the identity. -/
def jsOrEmptyStr (s : JSStr) : JSStr := if s.isEmpty then [] else s

/-- normalizeName from src/backend/utils/dataProcessor.js:
(name || '').toLowerCase().replace(/[^a-z0-9\s]/gi, '').replace(/\s+/g, ' ').trim().
The same function is inlined again in the export route source. -/
def normalizeName (s : JSStr) : JSStr :=
  trimWs (squeezeSpaces (((toLowerStr (jsOrEmptyStr s)).filter isKeepChar).map wsToSpace))

/-- Characters that can appear in a normalized name: lower-case letters,
digits, and the plain space. -/
def isNormChar (c : Char) : Bool :=
  (97 ≤ c.toNat && c.toNat ≤ 122) || (48 ≤ c.toNat && c.toNat ≤ 57) || c.toNat = 32

/-- No two adjacent characters are both spaces. -/
def NoDoubleSpace (l : JSStr) : Prop := l.Chain' fun a b => ¬(a = ' ' ∧ b = ' ')

/-- The first character, when one exists, is not whitespace. -/
def HeadNotWs (l : JSStr) : Prop := ∀ c, l.head? = some c → isWsChar c = false

/-- Boolean test that needle is a leading block of hay. -/
def isPrefixB : JSStr → JSStr → Bool
  | [], _ => true
  | _ :: _, [] => false
  | a :: as, b :: bs => a = b && isPrefixB as bs

/-- JS hay.includes(needle): substring test, true for the empty needle. -/
def containsSub (hay needle : JSStr) : Bool :=
  match hay with
  | [] => needle.isEmpty
  | _ :: t => isPrefixB needle hay || containsSub t needle

/-- JS string comparison a < b: lexicographic on character code units,
a proper leading block is smaller. -/
def jsStrLt : JSStr → JSStr → Bool
  | [], [] => false
  | [], _ :: _ => true
  | _ :: _, [] => false
  | a :: as, b :: bs =>
    if a.toNat < b.toNat then true
    else if b.toNat < a.toNat then false
    else jsStrLt as bs

/-- JS (x || 0) on a number that is not NaN: 0 is falsy and maps to 0, every
other number is truthy; the identity on rationals. -/
def jsOrZero (a : ℚ) : ℚ := if a = 0 then 0 else a

/-- One contribution record as built by parseLine in dataProcessor.js, with the
fields the search, filter, aggregation and export paths read.  amount is the
JS number parseFloat(transaction_amt) || 0, modelled as a rational;
name_normalized is precomputed at load time; date is the raw MMDDYYYY string. -/
structure Contribution where
  cmte_id : JSStr := []
  name : JSStr := []
  city : JSStr := []
  state : JSStr := []
  zip_code : JSStr := []
  employer : JSStr := []
  occupation : JSStr := []
  date : JSStr := []
  amount : ℚ := 0
  name_normalized : JSStr := []
deriving DecidableEq

/-- Decimal digit test. -/
def isDigitChar (c : Char) : Bool := 48 ≤ c.toNat && c.toNat ≤ 57

/-- Numeric value of a decimal digit character. -/
def digitValChar (c : Char) : ℕ := c.toNat - 48

/-- Consumes a maximal run of decimal digits, returning the accumulated value,
the number of digits consumed, and the rest of the input. -/
def takeDigits (acc : ℕ) (n : ℕ) : JSStr → ℕ × ℕ × JSStr
  | [] => (acc, n, [])
  | c :: cs =>
    if isDigitChar c then takeDigits (acc * 10 + digitValChar c) (n + 1) cs
    else (acc, n, c :: cs)

/-- JS parseFloat, modelled for the plain decimal grammar used for filter
bounds: optional leading whitespace, optional sign, digits with an optional
fractional part, trailing junk ignored.  none models NaN (no digit parsed).
The exponent form and the Infinity literals are outside the model. -/
def jsParseFloat (s : JSStr) : Option ℚ :=
  let s1 := s.dropWhile isWsChar
  let signed : ℚ × JSStr :=
    match s1 with
    | c :: cs => if c = '-' then (-1, cs) else if c = '+' then (1, cs) else (1, s1)
    | [] => (1, [])
  let (ip, nI, s3) := takeDigits 0 0 signed.2
  match s3 with
  | c :: cs =>
    if c = '.' then
      let (fp, nF, _) := takeDigits 0 0 cs
      if nI + nF = 0 then none
      else some (signed.1 * ((ip : ℚ) + (fp : ℚ) / (10 : ℚ) ^ nF))
    else if nI = 0 then none else some (signed.1 * (ip : ℚ))
  | [] => if nI = 0 then none else some (signed.1 * (ip : ℚ))

/-- Gregorian leap-year test, as in moment's calendar validation. -/
def isLeapYear (y : ℕ) : Bool := (y % 4 = 0 && y % 100 ≠ 0) || y % 400 = 0

/-- Days in a month of a given year. -/
def daysInMonth (y m : ℕ) : ℕ :=
  if m = 2 then (if isLeapYear y then 29 else 28)
  else if m = 4 ∨ m = 6 ∨ m = 9 ∨ m = 11 then 30
  else 31

/-- moment(s, 'YYYY-MM-DD') followed by isValid() and format('MMDDYYYY'),
modelled for the canonical ten-character YYYY-MM-DD form with calendar
validation (month 1-12, day within the month's length).  Returns the packed
MMDDYYYY string on success and none when the bound is invalid. -/
def parseDateYMD (s : JSStr) : Option JSStr :=
  match s with
  | [y1, y2, y3, y4, h1, m1, m2, h2, d1, d2] =>
    if h1 = '-' ∧ h2 = '-' ∧ isDigitChar y1 ∧ isDigitChar y2 ∧ isDigitChar y3 ∧
        isDigitChar y4 ∧ isDigitChar m1 ∧ isDigitChar m2 ∧ isDigitChar d1 ∧ isDigitChar d2 then
      let y := ((digitValChar y1 * 10 + digitValChar y2) * 10 + digitValChar y3) * 10 +
        digitValChar y4
      let m := digitValChar m1 * 10 + digitValChar m2
      let d := digitValChar d1 * 10 + digitValChar d2
      if 1 ≤ m ∧ m ≤ 12 ∧ 1 ≤ d ∧ d ≤ daysInMonth y m then
        some [m1, m2, d1, d2, y1, y2, y3, y4]
      else none
    else none
  | _ => none

/-- The optional filter fields shared by the single and bulk search routes.
Every field arrives as a string; none models an absent field.  The JS guards
test truthiness, so an empty string also means no constraint. -/
structure Filters where
  city : Option JSStr := none
  state : Option JSStr := none
  minAmount : Option JSStr := none
  maxAmount : Option JSStr := none
  startDate : Option JSStr := none
  endDate : Option JSStr := none

/-- The city stage: if (query.city) filter on case-insensitive substring match
against the record's city. -/
def applyCityF (v : Option JSStr) (l : List Contribution) : List Contribution :=
  match v with
  | none => l
  | some cv =>
    if cv.isEmpty then l
    else l.filter fun c => containsSub (toLowerStr (jsOrEmptyStr c.city)) (toLowerStr cv)

/-- The state stage: if (query.state) filter on case-insensitive exact match
against the record's state. -/
def applyStateF (v : Option JSStr) (l : List Contribution) : List Contribution :=
  match v with
  | none => l
  | some sv =>
    if sv.isEmpty then l
    else l.filter fun c => decide (toUpperStr (jsOrEmptyStr c.state) = toUpperStr sv)

/-- The minAmount stage: if (query.minAmount) filter on
c.amount >= parseFloat(query.minAmount); the comparison with NaN is false. -/
def applyMinF (v : Option JSStr) (l : List Contribution) : List Contribution :=
  match v with
  | none => l
  | some mv =>
    if mv.isEmpty then l
    else l.filter fun c =>
      match jsParseFloat mv with
      | some q => decide (q ≤ c.amount)
      | none => false

/-- The maxAmount stage: if (query.maxAmount) filter on
c.amount <= parseFloat(query.maxAmount); the comparison with NaN is false. -/
def applyMaxF (v : Option JSStr) (l : List Contribution) : List Contribution :=
  match v with
  | none => l
  | some mv =>
    if mv.isEmpty then l
    else l.filter fun c =>
      match jsParseFloat mv with
      | some q => decide (c.amount ≤ q)
      | none => false

/-- The startDate stage: if (query.startDate) and the bound parses as a valid
calendar date, filter on c.date >= bound in packed MMDDYYYY string order;
an invalid bound leaves the candidate set untouched. -/
def applyStartF (v : Option JSStr) (l : List Contribution) : List Contribution :=
  match v with
  | none => l
  | some sv =>
    if sv.isEmpty then l
    else
      match parseDateYMD sv with
      | some minD => l.filter fun c => !jsStrLt c.date minD
      | none => l

/-- The endDate stage: symmetric to the startDate stage with c.date <= bound. -/
def applyEndF (v : Option JSStr) (l : List Contribution) : List Contribution :=
  match v with
  | none => l
  | some sv =>
    if sv.isEmpty then l
    else
      match parseDateYMD sv with
      | some maxD => l.filter fun c => !jsStrLt maxD c.date
      | none => l

/-- The filter pipeline applied by both routes, in source order:
city, state, minAmount, maxAmount, startDate, endDate. -/
def applyFilters (f : Filters) (l : List Contribution) : List Contribution :=
  applyEndF f.endDate (applyStartF f.startDate (applyMaxF f.maxAmount
    (applyMinF f.minAmount (applyStateF f.state (applyCityF f.city l)))))

/-- The city stage as a per-record predicate. -/
def pCity (v : Option JSStr) (c : Contribution) : Bool :=
  match v with
  | none => true
  | some cv =>
    if cv.isEmpty then true
    else containsSub (toLowerStr (jsOrEmptyStr c.city)) (toLowerStr cv)

/-- The state stage as a per-record predicate. -/
def pState (v : Option JSStr) (c : Contribution) : Bool :=
  match v with
  | none => true
  | some sv =>
    if sv.isEmpty then true
    else decide (toUpperStr (jsOrEmptyStr c.state) = toUpperStr sv)

/-- The minAmount stage as a per-record predicate. -/
def pMin (v : Option JSStr) (c : Contribution) : Bool :=
  match v with
  | none => true
  | some mv =>
    if mv.isEmpty then true
    else
      match jsParseFloat mv with
      | some q => decide (q ≤ c.amount)
      | none => false

/-- The maxAmount stage as a per-record predicate. -/
def pMax (v : Option JSStr) (c : Contribution) : Bool :=
  match v with
  | none => true
  | some mv =>
    if mv.isEmpty then true
    else
      match jsParseFloat mv with
      | some q => decide (c.amount ≤ q)
      | none => false

/-- The startDate stage as a per-record predicate. -/
def pStart (v : Option JSStr) (c : Contribution) : Bool :=
  match v with
  | none => true
  | some sv =>
    if sv.isEmpty then true
    else
      match parseDateYMD sv with
      | some minD => !jsStrLt c.date minD
      | none => true

/-- The endDate stage as a per-record predicate. -/
def pEnd (v : Option JSStr) (c : Contribution) : Bool :=
  match v with
  | none => true
  | some sv =>
    if sv.isEmpty then true
    else
      match parseDateYMD sv with
      | some maxD => !jsStrLt maxD c.date
      | none => true

/-- The six stage predicates of a filter set, in source application order. -/
def filterPreds (f : Filters) : List (Contribution → Bool) :=
  [pCity f.city, pState f.state, pMin f.minAmount, pMax f.maxAmount,
    pStart f.startDate, pEnd f.endDate]

/-- Exact-mode search: contributions.filter(c => c.name_normalized.includes(norm))
with norm = normalizeName(query), shared by the single, bulk and export routes. -/
def exactSearch (recs : List Contribution) (q : JSStr) : List Contribution :=
  recs.filter fun c => containsSub c.name_normalized (normalizeName q)

/-- Fuse.js is an external library dependency, not part of this repository; its
search over the prebuilt index is modelled as an arbitrary function from the
extended-search query string to the scored candidate list, and the limit 1000
option passed at both call sites caps the returned list, modelled as take. -/
def fuseSearchLimited (fuse : JSStr → List Contribution) (searchTerms : JSStr) :
    List Contribution :=
  (fuse searchTerms).take 1000

/-- Splitting on a single space, as norm.split(' ') on normalized input. -/
def splitOnSpaceAux (acc : JSStr) : JSStr → List JSStr
  | [] => [acc.reverse]
  | c :: cs =>
    if c = ' ' then acc.reverse :: splitOnSpaceAux [] cs else splitOnSpaceAux (c :: acc) cs

/-- norm.split(' '). -/
def splitOnSpace (s : JSStr) : List JSStr := splitOnSpaceAux [] s

/-- The extended-search string handed to Fuse:
norm.split(' ').map(term => "'" + term).join(' ').  The leading code point 39
is the apostrophe that makes each token an include-match in Fuse. -/
def mkSearchTerms (norm : JSStr) : JSStr :=
  List.intercalate [' '] ((splitOnSpace norm).map fun t => Char.ofNat 39 :: t)

/-- query.fuzzy === '1' || query.fuzzy === 'true'. -/
def isFuzzyFlag (v : Option JSStr) : Bool :=
  v == some ['1'] || v == some ['t', 'r', 'u', 'e']

/-- The GET /api/search query parameters that reach the modelled computation.
limitParam and offsetParam hold parseInt of the raw parameters, with none for
an absent parameter or one whose parseInt is NaN. -/
structure SearchQuery where
  name : Option JSStr := none
  fuzzy : Option JSStr := none
  limitParam : Option Int := none
  offsetParam : Option Int := none
  filters : Filters := {}

/-- JS (x || d) on a parsed integer: NaN (none) and 0 are falsy. -/
def jsOrInt (v : Option Int) (d : Int) : Int :=
  match v with
  | none => d
  | some x => if x = 0 then d else x

/-- limit = Math.max(1, Math.min(parseInt(query.limit) || 50, 1000)). -/
def clampLimit (v : Option Int) : Int := max 1 (min (jsOrInt v 50) 1000)

/-- offset = Math.max(0, parseInt(query.offset) || 0). -/
def clampOffset (v : Option Int) : Int := max 0 (jsOrInt v 0)

/-- The name-match stage of GET /api/search: with a truthy name parameter the
exact or fuzzy branch runs on the normalized name, otherwise every record is
included. -/
def searchCandidates (recs : List Contribution) (fuse : JSStr → List Contribution)
    (q : SearchQuery) : List Contribution :=
  match q.name with
  | some nm =>
    if nm.isEmpty then recs
    else if isFuzzyFlag q.fuzzy then fuseSearchLimited fuse (mkSearchTerms (normalizeName nm))
    else exactSearch recs nm
  | none => recs

/-- The filtered set of GET /api/search before sorting and pagination. -/
def searchFiltered (recs : List Contribution) (fuse : JSStr → List Contribution)
    (q : SearchQuery) : List Contribution :=
  applyFilters q.filters (searchCandidates recs fuse q)

/-- The sort comparator of GET /api/search, as the precedence test a-before-b:
(a, b) => b.date.localeCompare(a.date), ties by b.amount - a.amount, so a may
precede b when a's date is larger, or the dates agree and a's amount is at
least b's.  localeCompare is modelled as code-unit comparison, which is its
value on the digit-only MMDDYYYY strings being compared. -/
def searchLe (a b : Contribution) : Bool :=
  if a.date = b.date then decide (b.amount ≤ a.amount) else jsStrLt b.date a.date

/-- The sorted sequence of GET /api/search.  ES2019 Array.prototype.sort is
stable, modelled by mergeSort with the comparator above. -/
def searchSorted (recs : List Contribution) (fuse : JSStr → List Contribution)
    (q : SearchQuery) : List Contribution :=
  (searchFiltered recs fuse q).mergeSort searchLe

/-- The JSON payload of GET /api/search that the modelled computation fills. -/
structure SearchResponse where
  contributions : List Contribution
  total : ℕ
  limit : Int
  offset : Int
deriving DecidableEq

/-- GET /api/search: filter, sort, then page with slice(offset, offset + limit)
and report total = filtered.length. -/
def searchRoute (recs : List Contribution) (fuse : JSStr → List Contribution)
    (q : SearchQuery) : SearchResponse :=
  let lim := clampLimit q.limitParam
  let off := clampOffset q.offsetParam
  let sorted := searchSorted recs fuse q
  SearchResponse.mk ((sorted.drop off.toNat).take lim.toNat)
    (searchFiltered recs fuse q).length lim off

/-- reduce((sum, c) => sum + (c.amount || 0), 0). -/
def sumAmounts (l : List Contribution) : ℚ :=
  l.foldl (fun s c => s + jsOrZero c.amount) 0

/-- First-occurrence deduplication: the iteration order of a JS Set built from
an array, used by the bulk route's new Set(matched.map(c => c.name)). -/
def dedupFirst (seen : List JSStr) : List JSStr → List JSStr
  | [] => []
  | n :: rest =>
    if n ∈ seen then dedupFirst seen rest else n :: dedupFirst (n :: seen) rest

/-- One matches[] element of a bulk search entry: the raw display name with the
group's count and total amount. -/
structure MatchGroup where
  name : JSStr
  count : ℕ
  totalAmount : ℚ
deriving DecidableEq

/-- One per-input-name entry of the bulk search output mapping.  The source
field named matches is rendered matchGroups because matches is reserved here. -/
structure BulkEntry where
  matchedNames : List JSStr
  count : ℕ
  totalAmount : ℚ
  contributions : List Contribution
  matchGroups : List MatchGroup
deriving DecidableEq

/-- The aggregation block of the bulk route: count, totalAmount, and matches[]
grouped by strict equality of the raw name field via
[...new Set(matched.map(c => c.name))] followed by a filter per name. -/
def aggregateEntry (matched : List Contribution) : BulkEntry :=
  let names := dedupFirst [] (matched.map fun c => c.name)
  let groups := names.map fun n =>
    let group := matched.filter fun c => decide (c.name = n)
    MatchGroup.mk n group.length (sumAmounts group)
  BulkEntry.mk (groups.map fun m => m.name) matched.length (sumAmounts matched) matched groups

/-- One input name of POST /api/bulk-search: normalize, search in the mode
shared by the whole request, apply the shared filters, aggregate. -/
def bulkSearchOne (recs : List Contribution) (fuse : JSStr → List Contribution)
    (fuzzy : Bool) (filters : Filters) (inputName : JSStr) : BulkEntry :=
  let matched :=
    if fuzzy then fuseSearchLimited fuse (mkSearchTerms (normalizeName inputName))
    else exactSearch recs inputName
  aggregateEntry (applyFilters filters matched)

/-- results[inputName] = entry on a JS object: a fresh string key is appended
in insertion order, an existing key keeps its position and takes the new value. -/
def upsertEntry (key : JSStr) (val : BulkEntry) :
    List (JSStr × BulkEntry) → List (JSStr × BulkEntry)
  | [] => [(key, val)]
  | kv :: rest =>
    if kv.1 = key then (key, val) :: rest else kv :: upsertEntry key val rest

/-- The output mapping of POST /api/bulk-search over the cleaned input names,
in Object.values order. -/
def bulkResults (recs : List Contribution) (fuse : JSStr → List Contribution)
    (fuzzy : Bool) (filters : Filters) (cleanNames : List JSStr) :
    List (JSStr × BulkEntry) :=
  cleanNames.foldl
    (fun acc nm => upsertEntry nm (bulkSearchOne recs fuse fuzzy filters nm) acc) []

/-- Object.values(results).flatMap(r => r.contributions): the record list the
bulk route writes into the result cache under the fresh search id. -/
def bulkAllContributions (recs : List Contribution) (fuse : JSStr → List Contribution)
    (fuzzy : Bool) (filters : Filters) (cleanNames : List JSStr) : List Contribution :=
  ((bulkResults recs fuse fuzzy filters cleanNames).map fun kv => kv.2.contributions).flatten

/-- A concrete record used to instantiate theorems with hypotheses. -/
def sampleRec : Contribution :=
  { name := ['J', 'o', 'h', 'n'], city := ['N', 'Y', 'C'], state := ['N', 'Y'],
    date := ['0', '1', '1', '5', '2', '0', '2', '0'], amount := 100,
    name_normalized := ['j', 'o', 'h', 'n'] }

/-- A second concrete record used to instantiate theorems with hypotheses. -/
def sampleRec2 : Contribution :=
  { name := ['J', 'o', 'n'], city := ['L', 'A'], state := ['C', 'A'],
    date := ['0', '2', '0', '1', '2', '0', '2', '0'], amount := 50,
    name_normalized := ['j', 'o', 'n'] }

/-- A record whose normalized name contains both single-letter queries a and b,
used to exhibit duplication in the bulk cache entry. -/
def sampleRecAB : Contribution :=
  { name := ['A', 'B'], city := ['N', 'Y', 'C'], state := ['N', 'Y'],
    date := ['0', '3', '0', '1', '2', '0', '2', '0'], amount := 10,
    name_normalized := ['a', 'b'] }

/-- The 10 * 60 * 1000 millisecond lifetime the bulk route gives each cache
entry via setTimeout deletion. -/
def cacheTTL : ℕ := 10 * 60 * 1000

/-- One entry of the searchResultsCache Map together with its insertion time;
the pending setTimeout deletion is modelled by the insertion timestamp. -/
structure CacheCell where
  key : JSStr
  value : List Contribution
  insertedAt : ℕ

/-- searchResultsCache.set(searchId, records) at a given time.  Bulk search ids
are fresh, so the new cell is simply put in front and shadows any older cell. -/
def cachePut (entries : List CacheCell) (k : JSStr) (v : List Contribution) (now : ℕ) :
    List CacheCell :=
  CacheCell.mk k v now :: entries

/-- searchResultsCache.get(searchId) as observed at a given time: the entry is
visible until its deletion timer has fired, i.e. strictly less than cacheTTL
milliseconds after insertion; the timer is modelled as firing punctually.
A fired timer and a key never inserted give the same result. -/
def cacheGet (entries : List CacheCell) (k : JSStr) (now : ℕ) : Option (List Contribution) :=
  match entries.find? fun e => decide (e.key = k) with
  | some e => if now < e.insertedAt + cacheTTL then some e.value else none
  | none => none

/-! Character-level facts. -/

theorem char_eq_of_toNat_eq {a b : Char} (h : a.toNat = b.toNat) : a = b := by
  apply Char.eq_of_val_eq
  have h2 : a.val.toBitVec = b.val.toBitVec := BitVec.eq_of_toNat_eq h
  exact congrArg UInt32.mk h2

theorem toNat_ofNat_lower {n : ℕ} (h1 : 97 ≤ n) (h2 : n ≤ 122) : (Char.ofNat n).toNat = n := by
  have hv : n.isValidChar := by left; omega
  simp only [Char.ofNat, dif_pos hv, Char.ofNatAux, Char.toNat]
  exact BitVec.toNat_ofNatLt n _

theorem jsLowerChar_not_upper (z : Char) :
    ¬(65 ≤ (jsLowerChar z).toNat ∧ (jsLowerChar z).toNat ≤ 90) := by
  unfold jsLowerChar
  split
  · next hg =>
    rw [toNat_ofNat_lower (by omega) (by omega)]
    omega
  · next hg => omega

theorem isNormChar_cases {c : Char} (h : isNormChar c = true) :
    (97 ≤ c.toNat ∧ c.toNat ≤ 122) ∨ (48 ≤ c.toNat ∧ c.toNat ≤ 57) ∨ c.toNat = 32 := by
  simp only [isNormChar, Bool.or_eq_true, Bool.and_eq_true, decide_eq_true_eq] at h
  tauto

theorem jsLowerChar_fix {c : Char} (h : isNormChar c = true) : jsLowerChar c = c := by
  have := isNormChar_cases h
  unfold jsLowerChar
  rw [if_neg]
  omega

theorem isKeepChar_of_norm {c : Char} (h : isNormChar c = true) : isKeepChar c = true := by
  have := isNormChar_cases h
  simp only [isKeepChar, isWsChar, Bool.or_eq_true, Bool.and_eq_true, decide_eq_true_eq]
  omega

theorem wsToSpace_fix {c : Char} (h : isNormChar c = true) : wsToSpace c = c := by
  have hc := isNormChar_cases h
  unfold wsToSpace
  split
  · next hw =>
    simp only [isWsChar, Bool.or_eq_true, decide_eq_true_eq] at hw
    have h32 : c.toNat = 32 := by omega
    have hsp : (' ' : Char).toNat = 32 := by decide
    exact (char_eq_of_toNat_eq (hsp.trans h32.symm))
  · rfl

theorem isWsChar_space : isWsChar ' ' = true := by decide

theorem not_ws_of_norm_not_space {c : Char} (h : isNormChar c = true) (hs : c ≠ ' ') :
    isWsChar c = false := by
  have hc := isNormChar_cases h
  have h32 : c.toNat ≠ 32 := fun hh => hs (char_eq_of_toNat_eq (by simpa using hh))
  simp only [isWsChar, Bool.or_eq_false_iff, decide_eq_false_iff_not]
  omega

/-! The substring relation behind JS includes. -/

theorem isPrefixB_iff (n h : JSStr) : isPrefixB n h = true ↔ ∃ t, h = n ++ t := by
  induction n generalizing h with
  | nil => simp [isPrefixB]
  | cons a as ih =>
    cases h with
    | nil => simp [isPrefixB]
    | cons b bs =>
      simp only [isPrefixB, Bool.and_eq_true, decide_eq_true_eq, ih, List.cons_append,
        List.cons.injEq]
      constructor
      · rintro ⟨rfl, t, rfl⟩
        exact ⟨t, rfl, rfl⟩
      · rintro ⟨t, rfl, rfl⟩
        exact ⟨rfl, t, rfl⟩

theorem containsSub_iff (h n : JSStr) :
    containsSub h n = true ↔ ∃ pre post, h = pre ++ n ++ post := by
  induction h with
  | nil =>
    constructor
    · intro hh
      have : n = [] := by
        cases n with
        | nil => rfl
        | cons c t => simp [containsSub, List.isEmpty] at hh
      exact ⟨[], [], by simp [this]⟩
    · rintro ⟨pre, post, hp⟩
      have hpre : pre = [] ∧ n ++ post = [] := by
        cases pre with
        | nil => exact ⟨rfl, by simpa using hp.symm⟩
        | cons x xs => simp at hp
      have hn : n = [] := by
        rcases List.append_eq_nil.mp hpre.2 with ⟨h1, _⟩
        exact h1
      simp [containsSub, hn, List.isEmpty]
  | cons c t ih =>
    simp only [containsSub, Bool.or_eq_true, isPrefixB_iff, ih]
    constructor
    · rintro (⟨tl, htl⟩ | ⟨pre, post, rfl⟩)
      · exact ⟨[], tl, by simpa using htl⟩
      · exact ⟨c :: pre, post, rfl⟩
    · rintro ⟨pre, post, hp⟩
      cases pre with
      | nil =>
        exact Or.inl ⟨post, by simpa using hp⟩
      | cons x xs =>
        rw [List.cons_append, List.cons_append] at hp
        injection hp with h1 h2
        exact Or.inr ⟨xs, post, by simpa using h2⟩

theorem containsSub_nil (h : JSStr) : containsSub h [] = true :=
  (containsSub_iff h []).mpr ⟨[], h, by simp⟩

/-- Claim C1: in exact mode a record r is in the candidate set for query q
iff normalize(q) is a substring of r's normalizedName; in particular a query
whose normalization is empty matches every record.  This covers the shared
filter expression contributions.filter(c => c.name_normalized.includes(norm))
of the single, bulk and export routes. -/
theorem claim1_exact_mode_membership (recs : List Contribution) (q : JSStr) :
    (∀ r : Contribution, r ∈ exactSearch recs q ↔
      r ∈ recs ∧ ∃ pre post, r.name_normalized = pre ++ normalizeName q ++ post) ∧
    (normalizeName q = [] → exactSearch recs q = recs) := by
  constructor
  · intro r
    rw [exactSearch, List.mem_filter, containsSub_iff]
  · intro hq
    rw [exactSearch]
    apply List.filter_eq_self.mpr
    intro a _
    rw [hq]
    exact containsSub_nil _

/-! Structure of normalized names, leading to idempotence of normalizeName. -/

theorem jsOrEmptyStr_eq (s : JSStr) : jsOrEmptyStr s = s := by
  cases s <;> simp [jsOrEmptyStr, List.isEmpty]

theorem mem_preSqueeze {s : JSStr} {c : Char}
    (h : c ∈ ((toLowerStr s).filter isKeepChar).map wsToSpace) : isNormChar c = true := by
  rcases List.mem_map.mp h with ⟨y, hy, rfl⟩
  rcases List.mem_filter.mp hy with ⟨hy2, hkeep⟩
  rcases List.mem_map.mp hy2 with ⟨z, _, rfl⟩
  by_cases hw : isWsChar (jsLowerChar z) = true
  · simp [wsToSpace, hw, isNormChar]
  · have hws : wsToSpace (jsLowerChar z) = jsLowerChar z := by
      simp [wsToSpace, hw]
    rw [hws]
    have hnu := jsLowerChar_not_upper z
    simp only [isKeepChar, Bool.or_eq_true, Bool.and_eq_true, decide_eq_true_eq] at hkeep
    rcases hkeep with ((h1 | h2) | h3) | h4
    · simp only [isNormChar, Bool.or_eq_true, Bool.and_eq_true, decide_eq_true_eq]
      tauto
    · omega
    · simp only [isNormChar, Bool.or_eq_true, Bool.and_eq_true, decide_eq_true_eq]
      tauto
    · exact absurd h4 hw

theorem mem_squeezeSpaces {c : Char} {l : JSStr} (h : c ∈ squeezeSpaces l) : c ∈ l := by
  induction l using squeezeSpaces.induct with
  | case1 =>
    rw [squeezeSpaces] at h
    exact h
  | case2 d =>
    rw [squeezeSpaces] at h
    exact h
  | case3 a b rest hg ih =>
    rw [squeezeSpaces, if_pos hg] at h
    exact List.mem_cons_of_mem a (ih h)
  | case4 a b rest hg ih =>
    rw [squeezeSpaces, if_neg hg] at h
    rcases List.mem_cons.mp h with rfl | h2
    · exact List.mem_cons_self _ _
    · exact List.mem_cons_of_mem a (ih h2)

theorem mem_trimWs {c : Char} {l : JSStr} (h : c ∈ trimWs l) : c ∈ l := by
  unfold trimWs at h
  rw [List.mem_reverse] at h
  have h2 := (List.dropWhile_sublist isWsChar).mem h
  rw [List.mem_reverse] at h2
  exact (List.dropWhile_sublist isWsChar).mem h2

theorem mem_normalizeName {s : JSStr} {c : Char} (h : c ∈ normalizeName s) :
    isNormChar c = true := by
  unfold normalizeName at h
  exact mem_preSqueeze (mem_squeezeSpaces (mem_trimWs h))

theorem head?_squeezeSpaces (l : JSStr) : (squeezeSpaces l).head? = l.head? := by
  induction l using squeezeSpaces.induct with
  | case1 => rfl
  | case2 d => rfl
  | case3 a b rest hg ih =>
    rw [squeezeSpaces, if_pos hg, ih]
    simp [hg.1, hg.2]
  | case4 a b rest hg ih =>
    rw [squeezeSpaces, if_neg hg]
    rfl

theorem noDoubleSpace_squeezeSpaces (l : JSStr) : NoDoubleSpace (squeezeSpaces l) := by
  induction l using squeezeSpaces.induct with
  | case1 => exact List.chain'_nil
  | case2 d => exact List.chain'_singleton d
  | case3 a b rest hg ih =>
    rw [squeezeSpaces, if_pos hg]
    exact ih
  | case4 a b rest hg ih =>
    rw [squeezeSpaces, if_neg hg]
    refine List.chain'_cons'.mpr ⟨?_, ih⟩
    intro y hy
    rw [head?_squeezeSpaces, List.head?_cons, Option.mem_def, Option.some.injEq] at hy
    subst hy
    exact hg

theorem squeezeSpaces_eq_self {l : JSStr} (h : NoDoubleSpace l) : squeezeSpaces l = l := by
  induction l using squeezeSpaces.induct with
  | case1 => rfl
  | case2 d => rfl
  | case3 a b rest hg ih =>
    exact absurd hg (List.chain'_cons.mp h).1
  | case4 a b rest hg ih =>
    rw [squeezeSpaces, if_neg hg, ih (List.chain'_cons.mp h).2]

theorem noDoubleSpace_dropWhile {l : JSStr} (p : Char → Bool) (h : NoDoubleSpace l) :
    NoDoubleSpace (l.dropWhile p) :=
  h.suffix (List.dropWhile_suffix p)

theorem noDoubleSpace_reverse {l : JSStr} (h : NoDoubleSpace l) : NoDoubleSpace l.reverse := by
  refine List.chain'_reverse.mpr ?_
  exact h.imp fun a b hab => by tauto

theorem noDoubleSpace_trimWs {l : JSStr} (h : NoDoubleSpace l) : NoDoubleSpace (trimWs l) := by
  unfold trimWs
  exact noDoubleSpace_reverse (noDoubleSpace_dropWhile _ (noDoubleSpace_reverse
    (noDoubleSpace_dropWhile _ h)))

theorem headNotWs_dropWhile (l : JSStr) : HeadNotWs (l.dropWhile isWsChar) := by
  induction l with
  | nil => intro c hc; simp [List.dropWhile] at hc
  | cons a t ih =>
    intro c hc
    rw [List.dropWhile_cons] at hc
    by_cases hw : isWsChar a = true
    · rw [if_pos hw] at hc
      exact ih c hc
    · rw [if_neg hw, List.head?_cons, Option.some.injEq] at hc
      subst hc
      simpa using hw

theorem dropWhile_eq_self_of_headNotWs {l : JSStr} (h : HeadNotWs l) :
    l.dropWhile isWsChar = l := by
  cases l with
  | nil => rfl
  | cons a t =>
    have := h a (by rfl)
    rw [List.dropWhile_cons, if_neg (by simp [this])]

theorem getLast?_dropWhile_of_ne_nil {l : JSStr} {p : Char → Bool}
    (h : l.dropWhile p ≠ []) : (l.dropWhile p).getLast? = l.getLast? := by
  obtain ⟨t, ht⟩ := List.dropWhile_suffix (l := l) p
  conv_rhs => rw [← ht]
  rw [List.getLast?_append]
  cases hu : (l.dropWhile p).getLast? with
  | none => exact absurd (List.getLast?_eq_none_iff.mp hu) h
  | some a => simp

theorem headNotWs_trimWs (l : JSStr) : HeadNotWs ((l.dropWhile isWsChar).reverse.dropWhile
    isWsChar).reverse := by
  intro c hc
  set y := l.dropWhile isWsChar with hy
  set z := (y.reverse.dropWhile isWsChar) with hz
  by_cases hzn : z = []
  · rw [hzn] at hc
    simp at hc
  · rw [List.head?_reverse] at hc
    rw [hz, getLast?_dropWhile_of_ne_nil (by rw [← hz]; exact hzn), List.getLast?_reverse] at hc
    exact headNotWs_dropWhile l c hc

theorem trimWs_eq_of_headNotWs {l : JSStr}
    (h1 : HeadNotWs l) (h2 : HeadNotWs l.reverse) : trimWs l = l := by
  unfold trimWs
  rw [dropWhile_eq_self_of_headNotWs h1, dropWhile_eq_self_of_headNotWs h2,
    List.reverse_reverse]

theorem trimWs_idem (l : JSStr) : trimWs (trimWs l) = trimWs l := by
  apply trimWs_eq_of_headNotWs
  · exact headNotWs_trimWs l
  · unfold trimWs
    rw [List.reverse_reverse]
    exact headNotWs_dropWhile _

theorem toLowerStr_eq_self {l : JSStr} (h : ∀ c ∈ l, isNormChar c = true) :
    toLowerStr l = l := by
  unfold toLowerStr
  rw [List.map_congr_left fun a ha => jsLowerChar_fix (h a ha)]
  exact List.map_id l

theorem filter_keep_eq_self {l : JSStr} (h : ∀ c ∈ l, isNormChar c = true) :
    l.filter isKeepChar = l :=
  List.filter_eq_self.mpr fun a ha => isKeepChar_of_norm (h a ha)

theorem map_wsToSpace_eq_self {l : JSStr} (h : ∀ c ∈ l, isNormChar c = true) :
    l.map wsToSpace = l := by
  rw [List.map_congr_left fun a ha => wsToSpace_fix (h a ha)]
  exact List.map_id l

/-- Claim C2: name normalization is idempotent, and total by construction:
normalize(normalize(s)) = normalize(s) for every string s, the empty string
included. -/
theorem claim2_normalize_idempotent (s : JSStr) :
    normalizeName (normalizeName s) = normalizeName s := by
  have hmem : ∀ c ∈ normalizeName s, isNormChar c = true := fun c hc => mem_normalizeName hc
  have h1 : normalizeName (normalizeName s) =
      trimWs (squeezeSpaces (normalizeName s)) := by
    unfold normalizeName
    rw [jsOrEmptyStr_eq]
    unfold normalizeName at hmem
    rw [toLowerStr_eq_self hmem, filter_keep_eq_self hmem, map_wsToSpace_eq_self hmem]
  have hnds : NoDoubleSpace (normalizeName s) := by
    unfold normalizeName
    exact noDoubleSpace_trimWs (noDoubleSpace_squeezeSpaces _)
  rw [h1, squeezeSpaces_eq_self hnds]
  show trimWs (trimWs (squeezeSpaces _)) = _
  rw [trimWs_idem]
  rfl

/-! The filter pipeline: every stage is a pure per-record filter, the pipeline
is the conjunction of the six stage predicates, and the stage order is
irrelevant. -/

theorem applyCityF_eq_filter (v : Option JSStr) (l : List Contribution) :
    applyCityF v l = l.filter (pCity v) := by
  cases v with
  | none => exact (List.filter_eq_self.mpr fun a _ => rfl).symm
  | some cv =>
    by_cases he : cv.isEmpty
    · simp only [applyCityF, if_pos he]
      exact (List.filter_eq_self.mpr fun a _ => by simp [pCity, he]).symm
    · simp only [applyCityF, if_neg he]
      exact List.filter_congr fun x _ => by simp [pCity, he]

theorem applyStateF_eq_filter (v : Option JSStr) (l : List Contribution) :
    applyStateF v l = l.filter (pState v) := by
  cases v with
  | none => exact (List.filter_eq_self.mpr fun a _ => rfl).symm
  | some sv =>
    by_cases he : sv.isEmpty
    · simp only [applyStateF, if_pos he]
      exact (List.filter_eq_self.mpr fun a _ => by simp [pState, he]).symm
    · simp only [applyStateF, if_neg he]
      exact List.filter_congr fun x _ => by simp [pState, he]

theorem applyMinF_eq_filter (v : Option JSStr) (l : List Contribution) :
    applyMinF v l = l.filter (pMin v) := by
  cases v with
  | none => exact (List.filter_eq_self.mpr fun a _ => rfl).symm
  | some mv =>
    by_cases he : mv.isEmpty
    · simp only [applyMinF, if_pos he]
      exact (List.filter_eq_self.mpr fun a _ => by simp [pMin, he]).symm
    · simp only [applyMinF, if_neg he]
      exact List.filter_congr fun x _ => by simp [pMin, he]

theorem applyMaxF_eq_filter (v : Option JSStr) (l : List Contribution) :
    applyMaxF v l = l.filter (pMax v) := by
  cases v with
  | none => exact (List.filter_eq_self.mpr fun a _ => rfl).symm
  | some mv =>
    by_cases he : mv.isEmpty
    · simp only [applyMaxF, if_pos he]
      exact (List.filter_eq_self.mpr fun a _ => by simp [pMax, he]).symm
    · simp only [applyMaxF, if_neg he]
      exact List.filter_congr fun x _ => by simp [pMax, he]

theorem applyStartF_eq_filter (v : Option JSStr) (l : List Contribution) :
    applyStartF v l = l.filter (pStart v) := by
  cases v with
  | none => exact (List.filter_eq_self.mpr fun a _ => rfl).symm
  | some sv =>
    by_cases he : sv.isEmpty
    · simp only [applyStartF, if_pos he]
      exact (List.filter_eq_self.mpr fun a _ => by simp [pStart, he]).symm
    · cases hp : parseDateYMD sv with
      | none =>
        simp only [applyStartF, if_neg he, hp]
        exact (List.filter_eq_self.mpr fun a _ => by simp [pStart, he, hp]).symm
      | some d =>
        simp only [applyStartF, if_neg he, hp]
        exact List.filter_congr fun x _ => by simp [pStart, he, hp]

theorem applyEndF_eq_filter (v : Option JSStr) (l : List Contribution) :
    applyEndF v l = l.filter (pEnd v) := by
  cases v with
  | none => exact (List.filter_eq_self.mpr fun a _ => rfl).symm
  | some sv =>
    by_cases he : sv.isEmpty
    · simp only [applyEndF, if_pos he]
      exact (List.filter_eq_self.mpr fun a _ => by simp [pEnd, he]).symm
    · cases hp : parseDateYMD sv with
      | none =>
        simp only [applyEndF, if_neg he, hp]
        exact (List.filter_eq_self.mpr fun a _ => by simp [pEnd, he, hp]).symm
      | some d =>
        simp only [applyEndF, if_neg he, hp]
        exact List.filter_congr fun x _ => by simp [pEnd, he, hp]

theorem foldl_filter_eq_filter_all (ps : List (Contribution → Bool)) (l : List Contribution) :
    ps.foldl (fun acc p => acc.filter p) l = l.filter fun r => ps.all fun p => p r := by
  induction ps generalizing l with
  | nil => simp [List.filter_true]
  | cons p ps ih =>
    rw [List.foldl_cons, ih, List.filter_filter]
    apply List.filter_congr
    intro x _
    simp [Bool.and_comm]

theorem perm_all_eq {ps qs : List (Contribution → Bool)} (h : ps.Perm qs) (r : Contribution) :
    (ps.all fun p => p r) = qs.all fun p => p r := by
  refine Bool.eq_iff_iff.mpr ?_
  simp only [List.all_eq_true]
  exact ⟨fun ha p hp => ha p (h.mem_iff.mpr hp), fun ha p hp => ha p (h.mem_iff.mp hp)⟩

theorem applyFilters_eq_foldl (f : Filters) (l : List Contribution) :
    applyFilters f l = (filterPreds f).foldl (fun acc p => acc.filter p) l := by
  simp only [applyFilters, filterPreds, List.foldl_cons, List.foldl_nil,
    applyCityF_eq_filter, applyStateF_eq_filter, applyMinF_eq_filter,
    applyMaxF_eq_filter, applyStartF_eq_filter, applyEndF_eq_filter]

theorem applyFilters_eq_filter (f : Filters) (l : List Contribution) :
    applyFilters f l = l.filter fun r => (filterPreds f).all fun p => p r := by
  rw [applyFilters_eq_foldl, foldl_filter_eq_filter_all]

/-- Claim C4: the six optional filter predicates are pure per-record tests, an
absent field constrains nothing, the pipeline's effect is the logical AND of
the present predicates, and applying the stage filters in any order yields the
same result set. -/
theorem claim4_filter_commutativity (f : Filters) (l : List Contribution) :
    (∀ r : Contribution, r ∈ applyFilters f l ↔ r ∈ l ∧
      pCity f.city r = true ∧ pState f.state r = true ∧ pMin f.minAmount r = true ∧
      pMax f.maxAmount r = true ∧ pStart f.startDate r = true ∧ pEnd f.endDate r = true) ∧
    (∀ r : Contribution, pCity none r = true ∧ pState none r = true ∧ pMin none r = true ∧
      pMax none r = true ∧ pStart none r = true ∧ pEnd none r = true) ∧
    ∀ ps : List (Contribution → Bool), ps.Perm (filterPreds f) →
      ps.foldl (fun acc p => acc.filter p) l = applyFilters f l := by
  refine ⟨?_, ?_, ?_⟩
  · intro r
    rw [applyFilters_eq_filter, List.mem_filter]
    simp [filterPreds, and_assoc]
  · intro r
    exact ⟨rfl, rfl, rfl, rfl, rfl, rfl⟩
  · intro ps hp
    rw [foldl_filter_eq_filter_all, applyFilters_eq_filter]
    exact List.filter_congr fun x _ => perm_all_eq hp x

/-- Witness for claim C4 at a concrete input: swapping the first two stages
(state before city) leaves the result unchanged. -/
theorem claim4_filter_commutativity_witness :
    [pState (some ['N', 'Y']), pCity (some ['n']), pMin (some ['1']), pMax none, pStart none,
      pEnd none].foldl (fun acc p => acc.filter p) [sampleRec, sampleRec2] =
    applyFilters { city := some ['n'], state := some ['N', 'Y'], minAmount := some ['1'] }
      [sampleRec, sampleRec2] :=
  (claim4_filter_commutativity
    { city := some ['n'], state := some ['N', 'Y'], minAmount := some ['1'] }
    [sampleRec, sampleRec2]).2.2 _ (List.Perm.swap _ _ _)

theorem pMin_malformed {s : JSStr} (hs : ¬s.isEmpty = true) (hp : jsParseFloat s = none)
    (x : Contribution) : pMin (some s) x = false := by
  simp [pMin, hs, hp]

theorem pMax_malformed {s : JSStr} (hs : ¬s.isEmpty = true) (hp : jsParseFloat s = none)
    (x : Contribution) : pMax (some s) x = false := by
  simp [pMax, hs, hp]

/-- Claim C7 counterexample: with the single record sampleRec and the malformed
bound minAmount = "abc" the search pipeline does not fail at all; the modelled
routes have no validation branch for amount bounds (the only error path in the
source is the catch-all 500 handler), parseFloat yields NaN, every comparison
with it is false, and the result set is silently altered from one record to
none, contradicting the claimed ValidationError. -/
theorem claim7_validation_counterexample :
    jsParseFloat ['a', 'b', 'c'] = none ∧
    applyFilters { minAmount := some ['a', 'b', 'c'] } [sampleRec] = [] ∧
    applyFilters {} [sampleRec] = [sampleRec] ∧
    (searchRoute [sampleRec] (fun _ => [])
      { filters := { minAmount := some ['a', 'b', 'c'] } }).total = 0 ∧
    (searchRoute [sampleRec] (fun _ => []) {}).total = 1 := by
  refine ⟨by decide, by decide, by decide, by decide, by decide⟩

/-- Claim C7 amended: a malformed minAmount or maxAmount bound is not reported
as an error; parseFloat yields NaN, the stage predicate is false for every
record, and the search result set silently becomes empty. -/
theorem claim7_amended_malformed_amount (f : Filters) (l : List Contribution) (s : JSStr)
    (hs : ¬s.isEmpty = true) (hp : jsParseFloat s = none) :
    applyFilters { f with minAmount := some s } l = [] ∧
    applyFilters { f with maxAmount := some s } l = [] := by
  constructor
  · rw [applyFilters_eq_filter]
    apply List.filter_eq_nil_iff.mpr
    intro a _ hall
    rw [List.all_eq_true] at hall
    have h2 := hall (pMin (some s)) (by simp [filterPreds])
    rw [pMin_malformed hs hp] at h2
    exact absurd h2 (by simp)
  · rw [applyFilters_eq_filter]
    apply List.filter_eq_nil_iff.mpr
    intro a _ hall
    rw [List.all_eq_true] at hall
    have h2 := hall (pMax (some s)) (by simp [filterPreds])
    rw [pMax_malformed hs hp] at h2
    exact absurd h2 (by simp)

/-- Witness for the amended claim C7 at a concrete input. -/
theorem claim7_amended_malformed_amount_witness :
    (¬(['a', 'b', 'c'] : JSStr).isEmpty = true) ∧ jsParseFloat ['a', 'b', 'c'] = none ∧
    (applyFilters { minAmount := some ['a', 'b', 'c'] } [sampleRec] = [] ∧
      applyFilters { maxAmount := some ['a', 'b', 'c'] } [sampleRec] = []) :=
  ⟨by decide, by decide,
    claim7_amended_malformed_amount {} [sampleRec] ['a', 'b', 'c'] (by decide) (by decide)⟩

theorem pStart_invalid {s : JSStr} (hp : parseDateYMD s = none) (x : Contribution) :
    pStart (some s) x = true := by
  by_cases he : s.isEmpty
  · simp [pStart, he]
  · simp [pStart, he, hp]

theorem pEnd_invalid {s : JSStr} (hp : parseDateYMD s = none) (x : Contribution) :
    pEnd (some s) x = true := by
  by_cases he : s.isEmpty
  · simp [pEnd, he]
  · simp [pEnd, he, hp]

/-- Claim C8: a startDate or endDate bound that fails to parse as a valid
calendar date is skipped: the result set equals the one for the same query
without the bound, and no error is raised (the modelled pipeline has no error
outcome for date bounds). -/
theorem claim8_invalid_date_noop (f : Filters) (l : List Contribution) (s : JSStr)
    (hp : parseDateYMD s = none) :
    applyFilters { f with startDate := some s } l =
      applyFilters { f with startDate := none } l ∧
    applyFilters { f with endDate := some s } l =
      applyFilters { f with endDate := none } l := by
  constructor
  · rw [applyFilters_eq_filter, applyFilters_eq_filter]
    apply List.filter_congr
    intro x _
    simp [filterPreds, pStart, hp]
  · rw [applyFilters_eq_filter, applyFilters_eq_filter]
    apply List.filter_congr
    intro x _
    simp [filterPreds, pEnd, hp]

/-- Witness for claim C8 at a concrete input: the unparseable bound "banana"
leaves the result set of a filterless query unchanged. -/
theorem claim8_invalid_date_noop_witness :
    parseDateYMD ['b', 'a', 'n', 'a', 'n', 'a'] = none ∧
    applyFilters { startDate := some ['b', 'a', 'n', 'a', 'n', 'a'] } [sampleRec] =
      applyFilters {} [sampleRec] :=
  ⟨by decide,
    (claim8_invalid_date_noop {} [sampleRec] ['b', 'a', 'n', 'a', 'n', 'a'] (by decide)).1⟩

/-! Aggregation: grouping by the raw name partitions the matched set and the
per-group counts and totals sum to the entry totals. -/

theorem dedupFirst_mem {x : JSStr} (seen l : List JSStr) :
    x ∈ dedupFirst seen l ↔ x ∈ l ∧ x ∉ seen := by
  induction l generalizing seen with
  | nil => simp [dedupFirst]
  | cons n rest ih =>
    by_cases hn : n ∈ seen
    · rw [dedupFirst, if_pos hn, ih]
      constructor
      · rintro ⟨h1, h2⟩
        exact ⟨List.mem_cons_of_mem _ h1, h2⟩
      · rintro ⟨h1, h2⟩
        rcases List.mem_cons.mp h1 with rfl | h3
        · exact absurd hn h2
        · exact ⟨h3, h2⟩
    · rw [dedupFirst, if_neg hn]
      constructor
      · intro hx
        rcases List.mem_cons.mp hx with rfl | h3
        · exact ⟨List.mem_cons_self _ _, hn⟩
        · rcases (ih _).mp h3 with ⟨h4, h5⟩
          exact ⟨List.mem_cons_of_mem _ h4, fun hc => h5 (List.mem_cons_of_mem _ hc)⟩
      · rintro ⟨h1, h2⟩
        by_cases hxn : x = n
        · subst hxn
          exact List.mem_cons_self _ _
        · rcases List.mem_cons.mp h1 with rfl | h3
          · exact absurd rfl hxn
          · refine List.mem_cons_of_mem _ ((ih _).mpr ⟨h3, fun hc => ?_⟩)
            rcases List.mem_cons.mp hc with rfl | hc2
            · exact hxn rfl
            · exact h2 hc2

theorem dedupFirst_nodup (seen l : List JSStr) : (dedupFirst seen l).Nodup := by
  induction l generalizing seen with
  | nil => simp [dedupFirst]
  | cons n rest ih =>
    by_cases hn : n ∈ seen
    · rw [dedupFirst, if_pos hn]
      exact ih seen
    · rw [dedupFirst, if_neg hn]
      refine List.nodup_cons.mpr ⟨fun hc => ?_, ih _⟩
      exact ((dedupFirst_mem _ _).mp hc).2 (List.mem_cons_self _ _)

theorem sum_ite_insert {M : Type} [AddCommMonoid M] {ns : List JSStr} {x : JSStr}
    (hnd : ns.Nodup) (hx : x ∈ ns) (a : M) (s : JSStr → M) :
    (ns.map fun n => if x = n then a + s n else s n).sum = a + (ns.map s).sum := by
  induction ns with
  | nil => simp at hx
  | cons m ms ih =>
    rcases List.nodup_cons.mp hnd with ⟨hm, hnd2⟩
    by_cases hxm : x = m
    · subst hxm
      rw [List.map_cons, if_pos rfl, List.sum_cons, List.map_cons, List.sum_cons]
      have hms : (ms.map fun n => if x = n then a + s n else s n) = ms.map s := by
        apply List.map_congr_left
        intro b hb
        rw [if_neg]
        intro hxb
        subst hxb
        exact hm hb
      rw [hms, add_assoc]
    · rcases List.mem_cons.mp hx with rfl | hx2
      · exact absurd rfl hxm
      rw [List.map_cons, if_neg hxm, List.sum_cons, List.map_cons, List.sum_cons,
        ih hnd2 hx2, add_left_comm]

theorem sum_over_groups {M : Type} [AddCommMonoid M] (g : Contribution → M)
    (ns : List JSStr) (l : List Contribution) (hnd : ns.Nodup)
    (hcov : ∀ r ∈ l, r.name ∈ ns) :
    (ns.map fun n => ((l.filter fun c => decide (c.name = n)).map g).sum).sum =
      (l.map g).sum := by
  induction l with
  | nil => simp
  | cons r t ih =>
    have hr : r.name ∈ ns := hcov r (List.mem_cons_self _ _)
    have hterm :
        (ns.map fun n => (((r :: t).filter fun c => decide (c.name = n)).map g).sum) =
        ns.map fun n =>
          if r.name = n then g r + ((t.filter fun c => decide (c.name = n)).map g).sum
          else ((t.filter fun c => decide (c.name = n)).map g).sum := by
      apply List.map_congr_left
      intro n _
      rw [List.filter_cons]
      by_cases hrn : r.name = n
      · rw [if_pos (by simpa using hrn), if_pos hrn, List.map_cons, List.sum_cons]
      · rw [if_neg (by simpa using hrn), if_neg hrn]
    rw [hterm, sum_ite_insert hnd hr,
      ih fun x hx => hcov x (List.mem_cons_of_mem _ hx), List.map_cons, List.sum_cons]

theorem sumAmounts_eq_sum (l : List Contribution) :
    sumAmounts l = (l.map fun c => jsOrZero c.amount).sum := by
  have h : ∀ (m : List Contribution) (a : ℚ),
      m.foldl (fun s c => s + jsOrZero c.amount) a =
        a + (m.map fun c => jsOrZero c.amount).sum := by
    intro m
    induction m with
    | nil => intro a; simp
    | cons c t ih =>
      intro a
      rw [List.foldl_cons, ih, List.map_cons, List.sum_cons, add_assoc]
  rw [sumAmounts, h, zero_add]

theorem length_eq_sum_ones (l : List Contribution) :
    l.length = (l.map fun _ => (1 : ℕ)).sum := by
  induction l with
  | nil => rfl
  | cons c t ih =>
    rw [List.length_cons, List.map_cons, List.sum_cons, ih]
    omega

/-- Claim C5: the bulk aggregation groups the matched records by strict string
equality of the raw name field, every matched record belongs to exactly one
group, the group counts sum to the entry count, and the group totals sum to
the entry total. -/
theorem claim5_aggregation_partition (l : List Contribution) :
    (∀ r ∈ l, ∃! gm : MatchGroup, gm ∈ (aggregateEntry l).matchGroups ∧ gm.name = r.name) ∧
    (((aggregateEntry l).matchGroups.map fun gm => gm.count).sum = (aggregateEntry l).count) ∧
    (((aggregateEntry l).matchGroups.map fun gm => gm.totalAmount).sum =
      (aggregateEntry l).totalAmount) := by
  have hnd : (dedupFirst [] (l.map fun c => c.name)).Nodup := dedupFirst_nodup _ _
  have hcov : ∀ r ∈ l, r.name ∈ dedupFirst [] (l.map fun c => c.name) := by
    intro r hr
    exact (dedupFirst_mem _ _).mpr ⟨List.mem_map.mpr ⟨r, hr, rfl⟩, by simp⟩
  refine ⟨?_, ?_, ?_⟩
  · intro r hr
    refine ⟨MatchGroup.mk r.name (l.filter fun c => decide (c.name = r.name)).length
      (sumAmounts (l.filter fun c => decide (c.name = r.name))), ⟨?_, rfl⟩, ?_⟩
    · exact List.mem_map.mpr ⟨r.name, hcov r hr, rfl⟩
    · rintro gm ⟨hgm, hname⟩
      rcases List.mem_map.mp hgm with ⟨n, _, rfl⟩
      simp only at hname
      subst hname
      rfl
  · show ((List.map _ (List.map _ _)).sum = l.length)
    rw [List.map_map]
    have : ((dedupFirst [] (l.map fun c => c.name)).map
        ((fun gm : MatchGroup => gm.count) ∘ fun n =>
          MatchGroup.mk n (l.filter fun c => decide (c.name = n)).length
            (sumAmounts (l.filter fun c => decide (c.name = n))))) =
        (dedupFirst [] (l.map fun c => c.name)).map fun n =>
          ((l.filter fun c => decide (c.name = n)).map fun _ => (1 : ℕ)).sum := by
      apply List.map_congr_left
      intro n _
      exact length_eq_sum_ones _
    rw [this, sum_over_groups (fun _ => (1 : ℕ)) _ l hnd hcov]
    exact (length_eq_sum_ones l).symm
  · show ((List.map _ (List.map _ _)).sum = sumAmounts l)
    rw [List.map_map]
    have : ((dedupFirst [] (l.map fun c => c.name)).map
        ((fun gm : MatchGroup => gm.totalAmount) ∘ fun n =>
          MatchGroup.mk n (l.filter fun c => decide (c.name = n)).length
            (sumAmounts (l.filter fun c => decide (c.name = n))))) =
        (dedupFirst [] (l.map fun c => c.name)).map fun n =>
          ((l.filter fun c => decide (c.name = n)).map fun c => jsOrZero c.amount).sum := by
      apply List.map_congr_left
      intro n _
      exact sumAmounts_eq_sum _
    rw [this, sum_over_groups (fun c => jsOrZero c.amount) _ l hnd hcov]
    exact (sumAmounts_eq_sum l).symm

/-! The bulk cache entry: concatenation of the per-entry matched lists. -/

/-- Claim C9 counterexample: in the bulk run with input names a and b over the
single record sampleRecAB (normalized name ab, matched by both), the list
written to the result cache contains that record twice, not exactly once: the
source flatMap does not deduplicate across entries. -/
theorem claim9_union_dedup_counterexample :
    (bulkResults [sampleRecAB] (fun _ => []) false {} [['a'], ['b']]).length = 2 ∧
    List.count sampleRecAB
      (bulkAllContributions [sampleRecAB] (fun _ => []) false {} [['a'], ['b']]) = 2 := by
  refine ⟨by decide, by decide⟩

/-- Claim C9 amended: the record list stored in the result cache under the
fresh identifier is the concatenation of the matched record lists across all
entries of the output mapping.  As a set it is the union: a record is cached
iff some entry matched it; but multiplicity is preserved, so a record matched
by several input names appears once per matching entry rather than exactly
once. -/
theorem claim9_amended_cache_concat (recs : List Contribution)
    (fuse : JSStr → List Contribution) (fuzzy : Bool) (filters : Filters)
    (cleanNames : List JSStr) (r : Contribution) :
    (r ∈ bulkAllContributions recs fuse fuzzy filters cleanNames ↔
      ∃ kv ∈ bulkResults recs fuse fuzzy filters cleanNames, r ∈ kv.2.contributions) ∧
    List.count r (bulkAllContributions recs fuse fuzzy filters cleanNames) =
      ((bulkResults recs fuse fuzzy filters cleanNames).map
        fun kv => List.count r kv.2.contributions).sum := by
  constructor
  · rw [bulkAllContributions, List.mem_flatten]
    constructor
    · rintro ⟨s, hs, hr⟩
      rcases List.mem_map.mp hs with ⟨kv, hkv, rfl⟩
      exact ⟨kv, hkv, hr⟩
    · rintro ⟨kv, hkv, hr⟩
      exact ⟨kv.2.contributions, List.mem_map.mpr ⟨kv, hkv, rfl⟩, hr⟩
  · rw [bulkAllContributions, List.count_flatten, List.map_map]
    rfl

/-! The result cache. -/

/-- Claim C6: a cache entry read back before its fixed ten-minute lifetime has
elapsed returns the stored record set; once the lifetime has elapsed the entry
reports a miss; and a key never inserted always misses, indistinguishably (the
miss is none in both cases).  The per-entry setTimeout deletion of the source
is modelled as firing punctually at insertion time plus cacheTTL. -/
theorem claim6_result_cache_contract (entries : List CacheCell) (k k2 : JSStr)
    (v : List Contribution) (t now : ℕ) :
    (now < t + cacheTTL → cacheGet (cachePut entries k v t) k now = some v) ∧
    (t + cacheTTL ≤ now → cacheGet (cachePut entries k v t) k now = none) ∧
    ((∀ e ∈ entries, e.key ≠ k2) → cacheGet entries k2 now = none) := by
  refine ⟨?_, ?_, ?_⟩
  · intro h
    rw [cacheGet, cachePut, List.find?_cons_of_pos _ (by simp)]
    show (if now < t + cacheTTL then some v else none) = some v
    rw [if_pos h]
  · intro h
    rw [cacheGet, cachePut, List.find?_cons_of_pos _ (by simp)]
    show (if now < t + cacheTTL then some v else none) = none
    rw [if_neg (by omega)]
  · intro h
    have hf : entries.find? (fun e => decide (e.key = k2)) = none :=
      List.find?_eq_none.mpr fun x hx => by simp [h x hx]
    rw [cacheGet, hf]

/-- Witness for claim C6 at concrete inputs: a fresh entry read at once, the
same entry read at exactly the lifetime, and a read of an absent key. -/
theorem claim6_result_cache_contract_witness :
    ((0 : ℕ) < 0 + cacheTTL ∧
      cacheGet (cachePut [] ['i'] [sampleRec] 0) ['i'] 0 = some [sampleRec]) ∧
    (0 + cacheTTL ≤ cacheTTL ∧
      cacheGet (cachePut [] ['i'] [sampleRec] 0) ['i'] cacheTTL = none) ∧
    ((∀ e ∈ ([] : List CacheCell), e.key ≠ ['j']) ∧
      cacheGet ([] : List CacheCell) ['j'] 5 = none) :=
  ⟨⟨by decide, (claim6_result_cache_contract [] ['i'] ['j'] [sampleRec] 0 0).1 (by decide)⟩,
    ⟨by decide, (claim6_result_cache_contract [] ['i'] ['j'] [sampleRec] 0 cacheTTL).2.1
      (by decide)⟩,
    ⟨by simp, (claim6_result_cache_contract [] ['i'] ['j'] [sampleRec] 0 5).2.2
      (by simp)⟩⟩

/-! The fuzzy candidate cap. -/

/-- Claim C3: the fuzzy search stage returns at most 1000 candidate records
for every query over every record set, before any city, state, amount or date
filter runs: both routes invoke fuse.search with the limit 1000 option, which
caps the returned candidate list. -/
theorem claim3_fuzzy_candidate_cap (fuse : JSStr → List Contribution) (terms : JSStr) :
    (fuseSearchLimited fuse terms).length ≤ 1000 := by
  rw [fuseSearchLimited, List.length_take]
  exact min_le_left _ _

/-! Ordering and pagination of the single-name search. -/

theorem jsStrLt_irrefl (a : JSStr) : jsStrLt a a = false := by
  induction a with
  | nil => rfl
  | cons c t ih => simp [jsStrLt, ih]

theorem jsStrLt_cons_iff {x y : Char} {xs ys : JSStr} :
    jsStrLt (x :: xs) (y :: ys) = true ↔
      x.toNat < y.toNat ∨ (x.toNat = y.toNat ∧ jsStrLt xs ys = true) := by
  rw [jsStrLt]
  by_cases h1 : x.toNat < y.toNat
  · simp [h1]
  · by_cases h2 : y.toNat < x.toNat
    · simp only [if_neg h1, if_pos h2]
      constructor
      · intro h
        exact absurd h (by simp)
      · intro h
        rcases h with h | ⟨h, _⟩ <;> omega
    · have hxy : x.toNat = y.toNat := by omega
      simp [h1, h2, hxy]

theorem jsStrLt_trans {a b c : JSStr} (h1 : jsStrLt a b = true) (h2 : jsStrLt b c = true) :
    jsStrLt a c = true := by
  induction a generalizing b c with
  | nil =>
    cases c with
    | nil =>
      cases b with
      | nil => exact h1
      | cons y ys => exact absurd h2 (by simp [jsStrLt])
    | cons z zs => rfl
  | cons x xs ih =>
    cases b with
    | nil => exact absurd h1 (by simp [jsStrLt])
    | cons y ys =>
      cases c with
      | nil => exact absurd h2 (by simp [jsStrLt])
      | cons z zs =>
        rw [jsStrLt_cons_iff] at h1 h2 ⊢
        rcases h1 with h1 | ⟨h1e, h1r⟩
        · rcases h2 with h2 | ⟨h2e, _⟩
          · left; omega
          · left; omega
        · rcases h2 with h2 | ⟨h2e, h2r⟩
          · left; omega
          · right; exact ⟨by omega, ih h1r h2r⟩

theorem jsStrLt_connex {a b : JSStr} (h1 : jsStrLt a b = false) (h2 : jsStrLt b a = false) :
    a = b := by
  induction a generalizing b with
  | nil =>
    cases b with
    | nil => rfl
    | cons y ys => exact absurd h1 (by simp [jsStrLt])
  | cons x xs ih =>
    cases b with
    | nil => exact absurd h2 (by simp [jsStrLt])
    | cons y ys =>
      have h1' : ¬(x.toNat < y.toNat ∨ (x.toNat = y.toNat ∧ jsStrLt xs ys = true)) := by
        rw [← jsStrLt_cons_iff]
        simp [h1]
      have h2' : ¬(y.toNat < x.toNat ∨ (y.toNat = x.toNat ∧ jsStrLt ys xs = true)) := by
        rw [← jsStrLt_cons_iff]
        simp [h2]
      push_neg at h1' h2'
      have hxy : x.toNat = y.toNat := by omega
      have hx : x = y := char_eq_of_toNat_eq hxy
      have hxs : xs = ys := ih (by simpa using h1'.2 hxy) (by simpa using h2'.2 hxy.symm)
      rw [hx, hxs]

theorem searchLe_trans (a b c : Contribution) (h1 : searchLe a b = true)
    (h2 : searchLe b c = true) : searchLe a c = true := by
  unfold searchLe at h1 h2 ⊢
  by_cases hab : a.date = b.date <;> by_cases hbc : b.date = c.date
  · rw [if_pos hab] at h1
    rw [if_pos hbc] at h2
    rw [if_pos (hab.trans hbc)]
    simp only [decide_eq_true_eq] at h1 h2 ⊢
    exact le_trans h2 h1
  · rw [if_pos hab] at h1
    rw [if_neg hbc] at h2
    have hac : a.date ≠ c.date := by
      rw [hab]
      exact hbc
    rw [if_neg hac, hab]
    exact h2
  · rw [if_neg hab] at h1
    rw [if_pos hbc] at h2
    have hac : a.date ≠ c.date := fun hc => hab (hc.trans hbc.symm)
    rw [if_neg hac, ← hbc]
    exact h1
  · rw [if_neg hab] at h1
    rw [if_neg hbc] at h2
    by_cases hac : a.date = c.date
    · exfalso
      rw [← hac] at h2
      have := jsStrLt_trans h1 h2
      rw [jsStrLt_irrefl] at this
      exact absurd this (by simp)
    · rw [if_neg hac]
      exact jsStrLt_trans h2 h1

theorem searchLe_total (a b : Contribution) : (searchLe a b || searchLe b a) = true := by
  unfold searchLe
  by_cases hab : a.date = b.date
  · rw [if_pos hab, if_pos hab.symm]
    simp only [Bool.or_eq_true, decide_eq_true_eq]
    exact le_total b.amount a.amount
  · rw [if_neg hab, if_neg (Ne.symm hab)]
    by_cases h1 : jsStrLt b.date a.date = true
    · simp [h1]
    · have h2 : jsStrLt a.date b.date = true := by
        by_contra h2
        exact hab (jsStrLt_connex (by simpa using h2) (by simpa using h1))
      simp [h2]

/-- Claim C10 (implicit): for every single-name search the returned sequence
is the filtered set sorted by the packed eight-character MMDDYYYY date string
in descending lexicographic order with ties broken by amount descending, the
returned page is the contiguous slice from offset of length limit of that
sorted sequence with limit clamped to [1, 1000], and the reported total is the
size of the filtered set before pagination. -/
theorem claim10_search_order_pagination (recs : List Contribution)
    (fuse : JSStr → List Contribution) (q : SearchQuery) :
    (searchRoute recs fuse q).total = (searchFiltered recs fuse q).length ∧
    1 ≤ (searchRoute recs fuse q).limit ∧ (searchRoute recs fuse q).limit ≤ 1000 ∧
    0 ≤ (searchRoute recs fuse q).offset ∧
    (searchRoute recs fuse q).contributions =
      ((searchSorted recs fuse q).drop (searchRoute recs fuse q).offset.toNat).take
        (searchRoute recs fuse q).limit.toNat ∧
    (searchSorted recs fuse q).Perm (searchFiltered recs fuse q) ∧
    (searchSorted recs fuse q).Pairwise fun a b =>
      jsStrLt b.date a.date = true ∨ (a.date = b.date ∧ b.amount ≤ a.amount) := by
  refine ⟨rfl, le_max_left _ _, ?_, le_max_left _ _, rfl, List.mergeSort_perm _ _, ?_⟩
  · show max 1 (min (jsOrInt q.limitParam 50) 1000) ≤ 1000
    exact max_le (by norm_num) (min_le_right _ _)
  · have hs := List.sorted_mergeSort searchLe_trans searchLe_total
      (searchFiltered recs fuse q)
    refine hs.imp ?_
    intro a b hab
    unfold searchLe at hab
    by_cases h : a.date = b.date
    · rw [if_pos h] at hab
      right
      exact ⟨h, by simpa using hab⟩
    · rw [if_neg h] at hab
      left
      exact hab

end PCM
